import Mathlib

set_option maxRecDepth 4000

/-!
Shallow embedding of `src/main.cpp` of the sqlite-to-json dumper.

Strings are modelled as `List Char`.  The external `sqlite3` process is an
I/O boundary: the extractor functions (`getTableColumns`, `getTableRecords`)
are modelled as pure functions of the raw text the external tool printed,
which is exactly what the C++ methods compute from `runner_.execute()`.
-/

namespace SqliteToJson

/-- `input.find(separator, start)` of `std::string`: does `separator` occur
at position `i` of `input` (the whole separator must fit)? -/
def matchesAt (input sep : List Char) (i : Nat) : Bool :=
  (input.drop i).take sep.length == sep

/-- `std::string::find(separator, start)`: the first position `i ≥ start`
at which `separator` occurs in `input`, `none` for `npos`.  An empty
separator matches at every position up to and including `input.length`,
as in C++. -/
def strFind (input sep : List Char) (start : Nat) : Option Nat :=
  (List.range (input.length + 1)).find? fun i => decide (start ≤ i) && matchesAt input sep i

/-- The `while` loop of `splitString` (src/main.cpp:13-16) plus the final
`tokens.push_back(input.substr(start))`, with an explicit fuel counter so
that non-termination (empty separator) is observable as `none`. -/
def splitAuxFuel : Nat → List Char → List Char → Nat → List (List Char) → Option (List (List Char))
  | 0, _, _, _, _ => none
  | fuel + 1, input, sep, start, acc =>
    match strFind input sep start with
    | none => some (acc ++ [input.drop start])
    | some e => splitAuxFuel fuel input sep (e + sep.length) ((acc ++ [(input.drop start).take (e - start)]))

/-- `splitString` (src/main.cpp:9-20).  For a non-empty separator the fuel
`input.length + 1` is always sufficient (proved below); for the empty
separator the C++ loop never terminates and the default is irrelevant. -/
def splitString (input separator : List Char) : List (List Char) :=
  (splitAuxFuel (input.length + 1) input separator 0 []).getD [input]

/-- The whitespace set `" \t\n\r"` of `trimString` (src/main.cpp:23-24). -/
def isTrimWs (c : Char) : Bool :=
  c == ' ' || c == '\t' || c == '\n' || c == '\r'

/-- `str.find_first_not_of(" \t\n\r")` (src/main.cpp:23). -/
def findFirstNotWs (s : List Char) : Option Nat :=
  (List.range s.length).find? fun i => !isTrimWs (s.getD i ' ')

/-- `str.find_last_not_of(" \t\n\r")` (src/main.cpp:24). -/
def findLastNotWs (s : List Char) : Option Nat :=
  (List.range s.length).reverse.find? fun i => !isTrimWs (s.getD i ' ')

/-- `trimString` (src/main.cpp:22-32): both finds are `npos` together
(the string is empty or all whitespace) giving `""`; otherwise
`str.substr(start, end - start + 1)`. -/
def trimString (str : List Char) : List Char :=
  match findFirstNotWs str, findLastNotWs str with
  | some start, some stop => (str.drop start).take (stop - start + 1)
  | _, _ => []

/-- The predicate of the lambda in `omitNullStrings` (src/main.cpp:88-95):
`isNull` stays `true` iff every character is `' '`, `'\t'` or `'\n'`
(note: `'\r'` is NOT in this set, unlike `trimString`). -/
def isNullString (str : List Char) : Bool :=
  str.all fun c => c == ' ' || c == '\t' || c == '\n'

/-- `omitNullStrings` (src/main.cpp:86-97): the erase-remove idiom keeps,
in order, exactly the elements on which the lambda returns `false`. -/
def omitNullStrings (strings : List (List Char)) : List (List Char) :=
  strings.filter fun str => !isNullString str

example : splitString "a|b|".toList ['|'] = [['a'], ['b'], []] := by decide
example : splitString "ab".toList ['|'] = [['a', 'b']] := by decide
example : trimString "  a \t".toList = ['a'] := by decide
example : trimString "".toList = [] := by decide
example : omitNullStrings [['a'], [' ', '\t'], [], ['\r'], ['b']] = [['a'], ['\r'], ['b']] := by decide

/-! ### Schema/record extraction (src/main.cpp:104-152)

Each extractor is a pure function of the text the external `sqlite3`
process wrote to standard output. -/

/-- `getTables` (src/main.cpp:104-115) as a function of the `.tables`
output: split on spaces, drop blank tokens, trim each remaining token. -/
def getTables (output : List Char) : List (List Char) :=
  (omitNullStrings (splitString output [' '])).map trimString

/-- The loop of `getTableColumns` (src/main.cpp:123-126): `parts[1]` on a
`std::vector` is an out-of-bounds access whenever the line split into
fewer than two fields; that undefined behaviour is modelled as `none`. -/
def getTableColumnsAux : List (List Char) → Option (List (List Char))
  | [] => some []
  | line :: rest =>
    match (splitString line ['|'])[1]?, getTableColumnsAux rest with
    | some c, some cs => some (c :: cs)
    | _, _ => none

/-- `getTableColumns` (src/main.cpp:117-129) as a function of the
`PRAGMA table_info` output. -/
def getTableColumns (output : List Char) : Option (List (List Char)) :=
  getTableColumnsAux (omitNullStrings (splitString output ['\n']))

/-- The keep condition `record.size() > 0 && !fieldAllEmpty` of
`getTableRecords` (src/main.cpp:139-147). -/
def keepRecord (record : List (List Char)) : Bool :=
  decide (0 < record.length) && !(record.all fun field => field.isEmpty)

/-- `getTableRecords` (src/main.cpp:131-152) as a function of the
`SELECT *` output: split into lines, split each line on `|`, keep the
records passing `keepRecord`, in line order. -/
def getTableRecords (output : List Char) : List (List (List Char)) :=
  ((splitString output ['\n']).map fun line => splitString line ['|']).filter keepRecord

/-! ### Field value coercion (src/main.cpp:171-188)

The nested `try`/`catch` blocks in `serialize` implement: empty → null,
else `std::stoi` (integer), else `std::stod` (real), else the string.
Both `std::invalid_argument` and `std::out_of_range` from `stoi` land in
the same `catch (...)`, so both count as "integer parse failed". -/

/-- The C-locale `isspace` set skipped by `strtol`/`strtod`. -/
def isSpaceChar (c : Char) : Bool :=
  c == ' ' || c == '\t' || c == '\n' || c == '\x0b' || c == '\x0c' || c == '\r'

/-- Value of a run of decimal digits. -/
def digitsToNat (ds : List Char) : Nat :=
  ds.foldl (fun a c => 10 * a + (c.toNat - '0'.toNat)) 0

/-- `std::stoi` (src/main.cpp:177): skip whitespace, optional sign, a
non-empty run of decimal digits interpreted base 10; `none` when there is
no digit (`std::invalid_argument`) or the value leaves the 32-bit `int`
range (`std::out_of_range`).  The digit run is a leading prefix: trailing
garbage such as `".14"` in `"3.14"` is ignored, not an error. -/
def stoi (s : List Char) : Option Int :=
  let t := s.dropWhile isSpaceChar
  let sg : Int := match t with | '-' :: _ => -1 | _ => 1
  let t2 : List Char := match t with | '+' :: r => r | '-' :: r => r | r => r
  let ds := t2.takeWhile Char.isDigit
  if ds.isEmpty then none
  else
    let v : Int := sg * digitsToNat ds
    if -(2 ^ 31) ≤ v ∧ v < 2 ^ 31 then some v else none

/-- Exponent part accepted by `strtod` after `e`/`E`: optional sign then a
non-empty digit run; with no digit the exponent is not consumed and
contributes 0. -/
def readExp (r : List Char) : Int :=
  let sg : Int := match r with | '-' :: _ => -1 | _ => 1
  let r2 : List Char := match r with | '+' :: q => q | '-' :: q => q | q => q
  let ds := r2.takeWhile Char.isDigit
  if ds.isEmpty then 0 else sg * digitsToNat ds

/-- A parsed `double` as classified by `strtod`: a finite value (carried
as the exact rational of the decimal literal; the rounding of that value
to the nearest `double` is not modelled), a signed infinity, or a NaN
(`strtod` returns a NaN for both `"nan"` and `"-nan"`; the sign of a NaN
is not observable in the JSON output, so the model drops it). -/
inductive DoubleVal where
  | finite : Rat → DoubleVal
  | inf : Bool → DoubleVal
  | nan : DoubleVal
deriving DecidableEq

/-- Case-insensitive `"inf"` at the head of the input after sign.
`strtod` accepts `INF` and `INFINITY`; both have this three-letter
prefix, the extra letters of `INFINITY` only extend the consumed prefix
and do not change the value, and no other accepted form starts with a
letter `i`, so prefix classification is exact. -/
def isInfPrefix (t : List Char) : Bool :=
  match t with
  | c1 :: c2 :: c3 :: _ => (c1.toLower == 'i') && (c2.toLower == 'n') && (c3.toLower == 'f')
  | _ => false

/-- Case-insensitive `"nan"` at the head of the input after sign.
`strtod` accepts `NAN` and `NAN(char-sequence)`; the optional suffix
never changes the classification (the value is a NaN either way). -/
def isNanPrefix (t : List Char) : Bool :=
  match t with
  | c1 :: c2 :: c3 :: _ => (c1.toLower == 'n') && (c2.toLower == 'a') && (c3.toLower == 'n')
  | _ => false

/-- The smallest magnitude `strtod` rounds up to infinity: the midpoint
`2^1024 - 2^970` just above `DBL_MAX = 2^1024 - 2^971` (round to
nearest, ties to even: the tie goes away from `DBL_MAX`, whose mantissa
is odd).  At or above this bound `strtod` sets `ERANGE`, so `std::stod`
throws `std::out_of_range`. -/
def dblOverflowBound : Rat := Rat.divInt ((2 ^ 1024 - 2 ^ 970 : Nat) : Int) 1

/-- The largest magnitude `strtod` rounds down to zero: the midpoint
`2^-1075` just below the smallest subnormal `2^-1074` (the tie rounds to
the even value 0).  A nonzero literal at or below this bound underflows
to zero, `strtod` sets `ERANGE`, and `std::stod` throws
`std::out_of_range`. -/
def dblUnderflowBound : Rat := Rat.divInt 1 ((2 ^ 1075 : Nat) : Int)

/-- `std::stod` (src/main.cpp:181) via `strtod`: skip whitespace and an
optional sign, then either an infinity form, a NaN form, or a decimal
literal — digits with an optional fractional part (at least one digit
overall) and an optional exponent — whose exact rational value is
`± digits(ip ++ fp) · 10 ^ (exponent - |fp|)`.  `none` covers both
failure modes the program treats alike (the outer `catch (...)` at
src/main.cpp:185): no conversion (`std::invalid_argument`) and `ERANGE`
(`std::out_of_range`), the latter modelled at the exact rounding
boundaries `dblOverflowBound` (overflow to infinity) and
`dblUnderflowBound` (underflow to zero).  Deliberate modelling choices:
for a subnormal result (magnitude strictly between the two underflow
bounds `2^-1075` and `2^-1022`) C99 7.22.1.3 leaves `ERANGE` on
underflow implementation-defined, and the model takes the no-error
reading (success); hexadecimal forms are not modelled because they
cannot reach this call site — any input whose `strtod` prefix is
hexadecimal starts with the digit `0`, on which the preceding
`std::stoi` already succeeds (src/main.cpp:177). -/
def stod (s : List Char) : Option DoubleVal :=
  let t := s.dropWhile isSpaceChar
  let neg : Bool := match t with | '-' :: _ => true | _ => false
  let t2 : List Char := match t with | '+' :: r => r | '-' :: r => r | r => r
  if isInfPrefix t2 then some (.inf neg)
  else if isNanPrefix t2 then some .nan
  else
    let ip := t2.takeWhile Char.isDigit
    let t3 := t2.dropWhile Char.isDigit
    let fp : List Char := match t3 with | '.' :: r => r.takeWhile Char.isDigit | _ => []
    let t4 : List Char := match t3 with | '.' :: r => r.dropWhile Char.isDigit | r => r
    if ip.isEmpty && fp.isEmpty then none
    else
      let ex : Int := match t4 with
        | 'e' :: r => readExp r
        | 'E' :: r => readExp r
        | _ => 0
      let e : Int := ex - (fp.length : Int)
      let mag : Int := (digitsToNat (ip ++ fp) : Int)
      let base : Int := if neg then -mag else mag
      let v : Rat :=
        if 0 ≤ e then Rat.divInt (base * ((10 ^ e.toNat : Nat) : Int)) 1
        else Rat.divInt base ((10 ^ e.natAbs : Nat) : Int)
      if dblOverflowBound ≤ v ∨ v ≤ -dblOverflowBound then none
      else if ¬(v = 0) ∧ -dblUnderflowBound ≤ v ∧ v ≤ dblUnderflowBound then none
      else some (.finite v)

example : stod "Inf".toList = some (.inf false) := by decide
example : stod "-infinity".toList = some (.inf true) := by decide
example : stod "nan".toList = some .nan := by decide
example : stod ".5".toList = some (.finite (Rat.divInt 1 2)) := by decide
example : stod ".9e999".toList = none := by decide
example : stod ".9e-999".toList = none := by decide
example : stod "abc".toList = none := by decide

/-- A JSON field value as produced by `serialize`. -/
inductive TypedValue where
  | null : TypedValue
  | int : Int → TypedValue
  | real : DoubleVal → TypedValue
  | str : List Char → TypedValue
deriving DecidableEq

/-- The per-field branch of `serialize` (src/main.cpp:171-188): empty
field → null; else the `stoi`/`stod`/string fallback chain. -/
def coerce (field : List Char) : TypedValue :=
  if field.isEmpty then .null
  else
    match stoi field with
    | some z => .int z
    | none =>
      match stod field with
      | some q => .real q
      | none => .str field

example : coerce "42".toList = .int 42 := by decide
example : coerce "abc".toList = .str "abc".toList := by decide
example : coerce "7abc".toList = .int 7 := by decide
example : coerce "3.14".toList = .int 3 := by decide
example : coerce "".toList = .null := by decide
example : coerce "Inf".toList = .real (.inf false) := by decide
example : coerce "-Inf".toList = .real (.inf true) := by decide
example : coerce "nan".toList = .real .nan := by decide
example : coerce ".5".toList = .real (.finite (Rat.divInt 1 2)) := by decide
example : coerce ".9e999".toList = .str ".9e999".toList := by decide
example : coerce ".9e-999".toList = .str ".9e-999".toList := by decide

/-! ### Record assembly (src/main.cpp:164-190)

A `nlohmann::json` object is modelled as an association list of
column/value pairs.  (nlohmann keeps object keys sorted; no theorem here
is about key order, only presence and values.)  `recordJson[column]`
without assignment inserts a null value when the key is absent and leaves
the object unchanged otherwise; `recordJson[column] = v` inserts or
overwrites. -/

/-- `recordJson[column];` on an empty field (src/main.cpp:172):
`operator[]` inserts `null` for an absent key, touches nothing else. -/
def jsonRef (obj : List (List Char × TypedValue)) (k : List Char) :
    List (List Char × TypedValue) :=
  if obj.any fun p => p.1 == k then obj else obj ++ [(k, .null)]

/-- `recordJson[column] = v` (src/main.cpp:178,182,186): insert or
overwrite the value at key `k`. -/
def jsonAssign (obj : List (List Char × TypedValue)) (k : List Char) (v : TypedValue) :
    List (List Char × TypedValue) :=
  if obj.any fun p => p.1 == k then obj.map fun p => if p.1 == k then (k, v) else p
  else obj ++ [(k, v)]

/-- One iteration of the field loop (src/main.cpp:167-189) on the pair
(field, column). -/
def serializeField (obj : List (List Char × TypedValue)) (fc : List Char × List Char) :
    List (List Char × TypedValue) :=
  if fc.1.isEmpty then jsonRef obj fc.2 else jsonAssign obj fc.2 (coerce fc.1)

/-- The field loop of `serialize` for one record: fields paired
positionally with column names.  The source reads `columns[i]` for every
`i < record.size()` — undefined behaviour when the record is longer than
the column list — so theorems about this function assume
`record.length ≤ columns.length`, under which `zip` pairs every field. -/
def serializeRecord (columns record : List (List Char)) :
    List (List Char × TypedValue) :=
  (record.zip columns).foldl serializeField []

example :
    serializeRecord ["id".toList, "name".toList] ["1".toList, "".toList]
      = [("id".toList, .int 1), ("name".toList, .null)] := by decide

/-! ### CLI entry point (src/main.cpp:198-227) -/

/-- Output path derivation (src/main.cpp:209-216): `dbFile.find('.')`,
then `substr` up to the first dot (or the whole path) with `".json"`
appended. -/
def derivedJsonPath (dbFile : List Char) : List Char :=
  match strFind dbFile ['.'] 0 with
  | some dotPos => dbFile.take dotPos ++ ".json".toList
  | none => dbFile ++ ".json".toList

/-- Observable outcome of `main`: the returned exit code, the lines
printed to `std::cerr`, and the path of the output file written (if the
conversion ran to completion). -/
structure MainResult where
  exitCode : Int
  errStream : List (List Char)
  outputFile : Option (List Char)
deriving DecidableEq

/-- `main` (src/main.cpp:198-227) over the list of command-line arguments
after the program name (`argc = args.length + 1`).  The conversion's
outcome is abstracted as `serializeError`: `some msg` when
`database.serialize` throws an exception with message `msg` (caught at
top level, logged, before any output file is produced), `none` when it
completes and writes the derived path. -/
def mainModel (args : List (List Char)) (serializeError : Option (List Char)) :
    MainResult :=
  match args with
  | [] => ⟨-1, ["Provide a database file to dump".toList], none⟩
  | [dbFile] =>
    match serializeError with
    | some msg => ⟨0, [msg], none⟩
    | none => ⟨0, [], some (derivedJsonPath dbFile)⟩
  | _ :: _ :: _ =>
    ⟨-1, ["Invalid utilisation : dump-db-to-json.exe path-to-db-file.db".toList], none⟩

example : derivedJsonPath "test.db".toList = "test.json".toList := by decide
example : derivedJsonPath "a.b.db".toList = "a.json".toList := by decide
example : derivedJsonPath "nodot".toList = "nodot.json".toList := by decide

/-! ### Tokenizer lemmas -/

/-- Joining with a separator, the inverse operation named by the spec's
round-trip law `join(split(t, s), s) == t`. -/
def joinWith (sep : List Char) : List (List Char) → List Char
  | [] => []
  | [x] => x
  | x :: y :: xs => x ++ sep ++ joinWith sep (y :: xs)

lemma joinWith_cons (sep x : List Char) (r : List (List Char)) (h : r ≠ []) :
    joinWith sep (x :: r) = x ++ sep ++ joinWith sep r := by
  cases r with
  | nil => exact absurd rfl h
  | cons y ys => rfl

lemma strFind_some (input sep : List Char) (start e : Nat)
    (h : strFind input sep start = some e) :
    start ≤ e ∧ e ≤ input.length ∧ matchesAt input sep e = true := by
  have hm := List.mem_of_find?_eq_some h
  have hp := List.find?_some h
  rw [List.mem_range] at hm
  simp only [Bool.and_eq_true, decide_eq_true_eq] at hp
  exact ⟨hp.1, Nat.lt_succ_iff.mp hm, hp.2⟩

lemma matchesAt_decomp (input sep : List Char) (e : Nat)
    (h : matchesAt input sep e = true) :
    input.drop e = sep ++ input.drop (e + sep.length) := by
  have ht : (input.drop e).take sep.length = sep := by
    simpa [matchesAt] using h
  calc input.drop e
      = (input.drop e).take sep.length ++ (input.drop e).drop sep.length :=
        (List.take_append_drop _ _).symm
    _ = sep ++ input.drop (e + sep.length) := by
        rw [ht, List.drop_drop, Nat.add_comm]

lemma matchesAt_le (input sep : List Char) (e : Nat) (hsep : sep ≠ [])
    (h : matchesAt input sep e = true) : e + sep.length ≤ input.length := by
  have ht : (input.drop e).take sep.length = sep := by
    simpa [matchesAt] using h
  have hl := congrArg List.length ht
  simp only [List.length_take, List.length_drop] at hl
  have hpos : 0 < sep.length := List.length_pos.mpr hsep
  omega

lemma strFind_decomp (input sep : List Char) (start e : Nat)
    (hse : start ≤ e) (h : matchesAt input sep e = true) :
    input.drop start
      = (input.drop start).take (e - start) ++ sep ++ input.drop (e + sep.length) := by
  have h1 : (input.drop start).drop (e - start) = input.drop e := by
    rw [List.drop_drop]
    congr 1
    omega
  calc input.drop start
      = (input.drop start).take (e - start) ++ (input.drop start).drop (e - start) :=
        (List.take_append_drop _ _).symm
    _ = (input.drop start).take (e - start) ++ (sep ++ input.drop (e + sep.length)) := by
        rw [h1, matchesAt_decomp input sep e h]
    _ = _ := (List.append_assoc _ _ _).symm

lemma splitAuxFuel_spec (input sep : List Char) (hsep : sep ≠ []) :
    ∀ fuel start acc, input.length - start < fuel → start ≤ input.length →
      ∃ r, splitAuxFuel fuel input sep start acc = some (acc ++ r) ∧ r ≠ [] ∧
        joinWith sep r = input.drop start := by
  intro fuel
  induction fuel with
  | zero =>
    intro start acc h _
    omega
  | succ fuel ih =>
    intro start acc hf hs
    cases hfind : strFind input sep start with
    | none =>
      exact ⟨[input.drop start], by simp [splitAuxFuel, hfind], by simp, rfl⟩
    | some e =>
      obtain ⟨hse, hel, hm⟩ := strFind_some input sep start e hfind
      have hfit := matchesAt_le input sep e hsep hm
      have hpos : 0 < sep.length := List.length_pos.mpr hsep
      obtain ⟨r', heq, hne, hjoin⟩ :=
        ih (e + sep.length) (acc ++ [(input.drop start).take (e - start)])
          (by omega) (by omega)
      refine ⟨(input.drop start).take (e - start) :: r', ?_, by simp, ?_⟩
      · rw [splitAuxFuel, hfind]
        show splitAuxFuel fuel input sep (e + sep.length)
            (acc ++ [(input.drop start).take (e - start)]) = _
        rw [heq]
        simp
      · rw [joinWith_cons sep _ r' hne, hjoin]
        exact (strFind_decomp input sep start e hse hm).symm

lemma splitAuxFuel_empty_sep (input : List Char) :
    ∀ n start acc, start ≤ input.length → splitAuxFuel n input [] start acc = none := by
  intro n
  induction n with
  | zero =>
    intro start acc _
    rfl
  | succ n ih =>
    intro start acc hs
    have hsome : (strFind input [] start).isSome := by
      rw [strFind, List.find?_isSome]
      exact ⟨start, List.mem_range.mpr (by omega), by simp [matchesAt]⟩
    cases hfind : strFind input [] start with
    | none =>
      rw [hfind] at hsome
      simp at hsome
    | some e =>
      obtain ⟨_, hel, _⟩ := strFind_some input [] start e hfind
      rw [splitAuxFuel, hfind]
      simpa using ih e _ hel

/-- C3: for every text `t` and non-empty separator `sep`, joining
`splitString t sep` back with `sep` yields `t`, the split always has at
least one element, and when `sep` does not occur in `t` that element is
the whole input. -/
theorem splitString_join_roundtrip (t sep : List Char) (hsep : sep ≠ []) :
    joinWith sep (splitString t sep) = t ∧ splitString t sep ≠ [] ∧
      (strFind t sep 0 = none → splitString t sep = [t]) := by
  obtain ⟨r, heq, hne, hjoin⟩ :=
    splitAuxFuel_spec t sep hsep (t.length + 1) 0 [] (by omega) (by omega)
  have hs : splitString t sep = r := by
    simp [splitString, heq]
  refine ⟨by rw [hs]; simpa using hjoin, by rw [hs]; exact hne, ?_⟩
  intro hnone
  simp [splitString, splitAuxFuel, hnone]

/-- Witness for C3 at `t = "a|b"`, `sep = "|"`. -/
theorem splitString_join_roundtrip_witness :
    joinWith ['|'] (splitString ['a', '|', 'b'] ['|']) = ['a', '|', 'b'] ∧
      splitString ['a', '|', 'b'] ['|'] ≠ [] ∧
      (strFind ['a', '|', 'b'] ['|'] 0 = none →
        splitString ['a', '|', 'b'] ['|'] = [['a', '|', 'b']]) :=
  splitString_join_roundtrip ['a', '|', 'b'] ['|'] (by decide)

/-- C10: with a non-empty separator the `splitString` loop terminates
(fuel `input.length + 1` always suffices), while with the empty separator
the search position never advances and no amount of fuel reaches the end
of the loop: the function is total only for non-empty separators. -/
theorem splitString_termination (input sep : List Char) (n : Nat) :
    (sep ≠ [] → (splitAuxFuel (input.length + 1) input sep 0 []).isSome) ∧
      splitAuxFuel n input [] 0 [] = none := by
  constructor
  · intro hsep
    obtain ⟨r, heq, _, _⟩ :=
      splitAuxFuel_spec input sep hsep (input.length + 1) 0 [] (by omega) (by omega)
    simp [heq]
  · exact splitAuxFuel_empty_sep input n 0 [] (by omega)

/-- Witness for C10 at `input = "ab"`, `sep = "|"`, fuel 5. -/
theorem splitString_termination_witness :
    (splitAuxFuel (['a', 'b'].length + 1) ['a', 'b'] ['|'] 0 []).isSome ∧
      splitAuxFuel 5 ['a', 'b'] [] 0 [] = none :=
  ⟨(splitString_termination ['a', 'b'] ['|'] 5).1 (by decide),
    (splitString_termination ['a', 'b'] ['|'] 5).2⟩

/-! ### trimString lemmas -/

lemma find?_range_some (n : Nat) (p : Nat → Bool) (st : Nat)
    (h : (List.range n).find? p = some st) :
    st < n ∧ p st = true ∧ ∀ j, j < st → p j = false := by
  have hmem := List.mem_of_find?_eq_some h
  rw [List.mem_range] at hmem
  refine ⟨hmem, List.find?_some h, ?_⟩
  obtain ⟨-, as, bs, hsplit, hall⟩ := List.find?_eq_some.mp h
  have hlen : as.length + (bs.length + 1) = n := by
    have hc := congrArg List.length hsplit
    simp [List.length_range, List.length_append] at hc
    omega
  have hstv : as.length = st := by
    have hrl : as.length < (List.range n).length := by
      simp [List.length_range]
      omega
    have h1 : (List.range n)[as.length] = st := List.getElem_of_append hsplit rfl
    simpa using h1
  intro j hj
  have hjlt : j < as.length := by omega
  have hmemj : j ∈ as := by
    rw [List.mem_iff_getElem?]
    refine ⟨j, ?_⟩
    have h2 : (List.range n)[j]? = as[j]? := by
      rw [hsplit]
      exact List.getElem?_append_left hjlt
    rw [← h2]
    exact List.getElem?_range (by omega)
  have := hall j hmemj
  simpa using this

lemma find?_reverse_range_some (n : Nat) (p : Nat → Bool) (en : Nat)
    (h : (List.range n).reverse.find? p = some en) :
    en < n ∧ p en = true ∧ ∀ j, en < j → j < n → p j = false := by
  have hmem := List.mem_of_find?_eq_some h
  rw [List.mem_reverse, List.mem_range] at hmem
  refine ⟨hmem, List.find?_some h, ?_⟩
  obtain ⟨-, as, bs, hsplit, hall⟩ := List.find?_eq_some.mp h
  have hlen : as.length + (bs.length + 1) = n := by
    have hc := congrArg List.length hsplit
    simp [List.length_reverse, List.length_range, List.length_append] at hc
    omega
  have henv : en = n - 1 - as.length := by
    have hrl : as.length < (List.range n).reverse.length := by
      simp [List.length_range]
      omega
    have h1 : (List.range n).reverse[as.length] = en := List.getElem_of_append hsplit rfl
    rw [List.getElem_reverse] at h1
    simp [List.length_range] at h1
    omega
  intro j hj hjn
  have hilt : n - 1 - j < as.length := by omega
  have hmemj : j ∈ as := by
    rw [List.mem_iff_getElem?]
    refine ⟨n - 1 - j, ?_⟩
    have h2 : (List.range n).reverse[n - 1 - j]? = as[n - 1 - j]? := by
      rw [hsplit]
      exact List.getElem?_append_left hilt
    rw [← h2, List.getElem?_reverse (by simp [List.length_range]; omega)]
    rw [List.length_range]
    have hjj : n - 1 - (n - 1 - j) = j := by omega
    rw [hjj]
    exact List.getElem?_range (by omega)
  have := hall j hmemj
  simpa using this

lemma findFirstNotWs_some (s : List Char) (st : Nat)
    (h : findFirstNotWs s = some st) :
    st < s.length ∧ isTrimWs (s.getD st ' ') = false ∧
      ∀ j, j < st → isTrimWs (s.getD j ' ') = true := by
  obtain ⟨h1, h2, h3⟩ := find?_range_some s.length _ st h
  refine ⟨h1, by simpa using h2, fun j hj => ?_⟩
  simpa using h3 j hj

lemma findLastNotWs_some (s : List Char) (en : Nat)
    (h : findLastNotWs s = some en) :
    en < s.length ∧ isTrimWs (s.getD en ' ') = false ∧
      ∀ j, en < j → j < s.length → isTrimWs (s.getD j ' ') = true := by
  obtain ⟨h1, h2, h3⟩ := find?_reverse_range_some s.length _ en h
  refine ⟨h1, by simpa using h2, fun j hj hjn => ?_⟩
  simpa using h3 j hj hjn

lemma findFirstNotWs_none_iff (s : List Char) :
    findFirstNotWs s = none ↔ ∀ c ∈ s, isTrimWs c = true := by
  rw [findFirstNotWs, List.find?_eq_none]
  constructor
  · intro h c hc
    obtain ⟨i, hi, hci⟩ := List.mem_iff_getElem.mp hc
    have h2 := h i (List.mem_range.mpr hi)
    rw [List.getD_eq_getElem s ' ' hi, hci] at h2
    simpa using h2
  · intro h i hi
    rw [List.mem_range] at hi
    rw [List.getD_eq_getElem s ' ' hi]
    simp [h _ (List.getElem_mem hi)]

lemma trimString_eq_nil (s : List Char) (hf : findFirstNotWs s = none) :
    trimString s = [] := by
  have hl : findLastNotWs s = none := by
    rw [findLastNotWs, List.find?_eq_none]
    intro i hi
    rw [List.mem_reverse, List.mem_range] at hi
    rw [List.getD_eq_getElem s ' ' hi]
    simp [(findFirstNotWs_none_iff s).mp hf _ (List.getElem_mem hi)]
  rw [trimString, hf, hl]

lemma findLastNotWs_isSome (s : List Char) (st : Nat)
    (hf : findFirstNotWs s = some st) : ∃ en, findLastNotWs s = some en := by
  obtain ⟨h1, h2, -⟩ := findFirstNotWs_some s st hf
  rw [← Option.isSome_iff_exists, findLastNotWs, List.find?_isSome]
  exact ⟨st, by simp [List.mem_range, h1], by simpa using h2⟩

lemma trimString_core (s : List Char) (st en : Nat)
    (hf : findFirstNotWs s = some st) (hl : findLastNotWs s = some en) :
    st ≤ en ∧ en < s.length ∧
      trimString s = (s.drop st).take (en - st + 1) ∧
      (trimString s).length = en - st + 1 ∧
      s = s.take st ++ trimString s ++ s.drop (en + 1) ∧
      (∀ c ∈ s.take st, isTrimWs c = true) ∧
      (∀ c ∈ s.drop (en + 1), isTrimWs c = true) ∧
      isTrimWs ((trimString s).getD 0 'a') = false ∧
      isTrimWs ((trimString s).getD ((trimString s).length - 1) 'a') = false := by
  obtain ⟨hst, hfw, hmin⟩ := findFirstNotWs_some s st hf
  obtain ⟨hen, hlw, hmax⟩ := findLastNotWs_some s en hl
  have hse : st ≤ en := by
    by_contra hc
    push_neg at hc
    have h3 := hmax st hc hst
    rw [h3] at hfw
    simp at hfw
  have htrim : trimString s = (s.drop st).take (en - st + 1) := by
    rw [trimString, hf, hl]
  have hlen : (trimString s).length = en - st + 1 := by
    rw [htrim, List.length_take, List.length_drop]
    omega
  have hget : ∀ i, i < en - st + 1 → (trimString s)[i]? = s[st + i]? := by
    intro i hilt
    rw [htrim, List.getElem?_take_of_lt hilt, List.getElem?_drop]
  have hdecomp : s = s.take st ++ trimString s ++ s.drop (en + 1) := by
    rw [htrim, List.append_assoc]
    conv_lhs => rw [← List.take_append_drop st s]
    congr 1
    conv_lhs => rw [← List.take_append_drop (en - st + 1) (s.drop st)]
    congr 1
    rw [List.drop_drop]
    congr 1
    omega
  have htake : ∀ c ∈ s.take st, isTrimWs c = true := by
    intro c hc
    obtain ⟨i, hi, hci⟩ := List.mem_take_iff_getElem.mp hc
    have hi1 : i < st := by omega
    have hi2 : i < s.length := by omega
    have h4 := hmin i hi1
    rwa [List.getD_eq_getElem s ' ' hi2, hci] at h4
  have hdrop : ∀ c ∈ s.drop (en + 1), isTrimWs c = true := by
    intro c hc
    obtain ⟨i, hi, hci⟩ := List.mem_drop_iff_getElem.mp hc
    have h5 := hmax (en + 1 + i) (by omega) (by omega)
    rwa [List.getD_eq_getElem s ' ' (by omega), hci] at h5
  have hhead : isTrimWs ((trimString s).getD 0 'a') = false := by
    rw [List.getD_eq_getElem?_getD, hget 0 (by omega)]
    rw [Nat.add_zero, List.getElem?_eq_getElem hst]
    rwa [List.getD_eq_getElem s ' ' hst] at hfw
  have hlast : isTrimWs ((trimString s).getD ((trimString s).length - 1) 'a') = false := by
    rw [List.getD_eq_getElem?_getD, hlen]
    show isTrimWs ((trimString s)[en - st]?.getD 'a') = false
    rw [hget (en - st) (by omega)]
    have h8 : st + (en - st) = en := by omega
    rw [h8, List.getElem?_eq_getElem hen]
    rwa [List.getD_eq_getElem s ' ' hen] at hlw
  exact ⟨hse, hen, htrim, hlen, hdecomp, htake, hdrop, hhead, hlast⟩

lemma trimString_of_ends (t : List Char) (hne : t ≠ [])
    (hh : isTrimWs (t.getD 0 'a') = false)
    (hlast : isTrimWs (t.getD (t.length - 1) 'a') = false) :
    trimString t = t := by
  have hpos : 0 < t.length := List.length_pos.mpr hne
  obtain ⟨n, hn⟩ : ∃ n, t.length = n + 1 := ⟨t.length - 1, by omega⟩
  have hh2 : (!isTrimWs (t.getD 0 ' ')) = true := by
    rw [List.getD_eq_getElem t ' ' hpos]
    rw [List.getD_eq_getElem t 'a' hpos] at hh
    simp [hh]
  have hl2 : (!isTrimWs (t.getD n ' ')) = true := by
    have hnl : n < t.length := by omega
    rw [List.getD_eq_getElem t ' ' hnl]
    rw [List.getD_eq_getElem t 'a' (by omega : t.length - 1 < t.length)] at hlast
    have hq : t.length - 1 = n := by omega
    have h9 : t[t.length - 1] = t[n] := by
      apply Option.some.inj
      rw [← List.getElem?_eq_getElem, ← List.getElem?_eq_getElem, hq]
    rw [h9] at hlast
    simp [hlast]
  have hfirst : findFirstNotWs t = some 0 := by
    rw [findFirstNotWs, hn, List.range_succ_eq_map]
    exact List.find?_cons_of_pos _ hh2
  have hlastf : findLastNotWs t = some n := by
    rw [findLastNotWs, hn, List.range_succ, List.reverse_append]
    simp only [List.reverse_singleton, List.singleton_append]
    exact List.find?_cons_of_pos _ hl2
  rw [trimString, hfirst, hlastf]
  show t.take (n + 1) = t
  rw [← hn, List.take_length]

lemma trimString_idem (x : List Char) :
    trimString (trimString x) = trimString x := by
  cases hf : findFirstNotWs x with
  | none =>
    rw [trimString_eq_nil x hf]
    decide
  | some st =>
    obtain ⟨en, hl⟩ := findLastNotWs_isSome x st hf
    obtain ⟨-, -, -, hlen, -, -, -, hh, hla⟩ := trimString_core x st en hf hl
    exact trimString_of_ends _ (List.length_pos.mp (by rw [hlen]; omega)) hh hla

/-- C9: `trimString` is idempotent; it decomposes its input into an
all-whitespace prefix, the trimmed core (whose first and last characters
are not whitespace) and an all-whitespace suffix, the whitespace set
being {space, tab, newline, carriage-return}; it returns `""` exactly on
empty or all-whitespace input; and `trim "" = ""`,
`trim "  a \t" = "a"`. -/
theorem trimString_spec (x : List Char) :
    trimString (trimString x) = trimString x ∧
      (∃ a b, x = a ++ trimString x ++ b ∧
        (∀ c ∈ a, isTrimWs c = true) ∧ (∀ c ∈ b, isTrimWs c = true)) ∧
      (trimString x = [] ↔ ∀ c ∈ x, isTrimWs c = true) ∧
      isTrimWs ((trimString x).getD 0 'a') = false ∧
      isTrimWs ((trimString x).getD ((trimString x).length - 1) 'a') = false ∧
      trimString [] = [] ∧ trimString "  a \t".toList = ['a'] := by
  have hmain : (∃ a b, x = a ++ trimString x ++ b ∧
        (∀ c ∈ a, isTrimWs c = true) ∧ (∀ c ∈ b, isTrimWs c = true)) ∧
      (trimString x = [] ↔ ∀ c ∈ x, isTrimWs c = true) ∧
      isTrimWs ((trimString x).getD 0 'a') = false ∧
      isTrimWs ((trimString x).getD ((trimString x).length - 1) 'a') = false := by
    cases hf : findFirstNotWs x with
    | none =>
      have hnil := trimString_eq_nil x hf
      have hall := (findFirstNotWs_none_iff x).mp hf
      refine ⟨⟨x, [], by simp [hnil], hall, by simp⟩,
        ⟨fun _ => hall, fun _ => hnil⟩, ?_, ?_⟩
      · rw [hnil]
        decide
      · rw [hnil]
        decide
    | some st =>
      obtain ⟨en, hl⟩ := findLastNotWs_isSome x st hf
      obtain ⟨hse, hen, htrim, hlen, hdecomp, htake, hdrop, hh, hla⟩ :=
        trimString_core x st en hf hl
      refine ⟨⟨x.take st, x.drop (en + 1), hdecomp, htake, hdrop⟩, ?_, hh, hla⟩
      constructor
      · intro h0
        rw [h0] at hlen
        simp at hlen
      · intro hall
        have hnone := (findFirstNotWs_none_iff x).mpr hall
        rw [hf] at hnone
        exact Option.noConfusion hnone
  exact ⟨trimString_idem x, hmain.1, hmain.2.1, hmain.2.2.1, hmain.2.2.2,
    by decide, by decide⟩

/-! ### omitNullStrings: C5 -/

lemma isNullString_iff (s : List Char) :
    isNullString s = true ↔ ∀ c ∈ s, c = ' ' ∨ c = '\t' ∨ c = '\n' := by
  simp [isNullString, or_assoc]

/-- C5 counterexample: the claim's whitespace set includes the carriage
return, but the lambda in `omitNullStrings` only checks space, tab and
newline, so the all-whitespace-by-the-claim element `"\r"` is kept, where
the claim predicts it is removed. -/
theorem omitNullStrings_cr_counterexample :
    omitNullStrings [['\r']] = [['\r']] ∧ isTrimWs '\r' = true ∧
      ¬(omitNullStrings [['\r']] = [['\r']].filter fun s => !(s.all isTrimWs)) := by
  decide

/-- C5 (amended): `omitNullStrings` removes exactly the elements that are
empty or consist only of characters from {space, tab, newline} — the
carriage return is NOT in the whitespace set this function checks — and
keeps the remaining elements in their relative order. -/
theorem omitNullStrings_spec (l : List (List Char)) :
    List.Sublist (omitNullStrings l) l ∧
      ∀ s, s ∈ omitNullStrings l ↔
        s ∈ l ∧ ¬(∀ c ∈ s, c = ' ' ∨ c = '\t' ∨ c = '\n') := by
  refine ⟨List.filter_sublist _, fun s => ?_⟩
  rw [show omitNullStrings l = l.filter (fun str => !isNullString str) from rfl,
    List.mem_filter, ← isNullString_iff]
  simp

/-! ### getTableRecords: C2 -/

lemma keepRecord_iff (r : List (List Char)) :
    keepRecord r = true ↔ ¬(r = [] ∨ ∀ f ∈ r, f = []) := by
  rw [keepRecord]
  simp [not_or, List.length_pos]

/-- C2: a line of the SELECT output is discarded iff its `|`-split has
zero fields or all its fields are empty; the kept records are the
per-line splits in line order (a sublist of them); in particular a row of
all-empty fields (the middle line below) is dropped. -/
theorem getTableRecords_spec (output : List Char) :
    List.Sublist (getTableRecords output)
        ((splitString output ['\n']).map fun line => splitString line ['|']) ∧
      (∀ r, r ∈ getTableRecords output ↔
        r ∈ ((splitString output ['\n']).map fun line => splitString line ['|']) ∧
          ¬(r = [] ∨ ∀ f ∈ r, f = [])) ∧
      getTableRecords "1|a\n||\n2|b".toList = [[['1'], ['a']], [['2'], ['b']]] := by
  refine ⟨List.filter_sublist _, fun r => ?_, by decide⟩
  rw [show getTableRecords output
      = (((splitString output ['\n']).map fun line => splitString line ['|']).filter
          keepRecord) from rfl,
    List.mem_filter, keepRecord_iff]

/-! ### getTableColumns: C7 -/

lemma getTableColumnsAux_isSome (lines : List (List Char)) :
    (getTableColumnsAux lines).isSome = true ↔
      ∀ line ∈ lines, 2 ≤ (splitString line ['|']).length := by
  induction lines with
  | nil => simp [getTableColumnsAux]
  | cons line rest ih =>
    rw [getTableColumnsAux]
    cases h1 : (splitString line ['|'])[1]? with
    | none =>
      have hlt : (splitString line ['|']).length ≤ 1 := by
        simpa using List.getElem?_eq_none_iff.mp h1
      simp only [List.mem_cons]
      constructor
      · intro h
        simp at h
      · intro h
        have := h line (Or.inl rfl)
        omega
    | some c =>
      have hge : 1 < (splitString line ['|']).length := by
        by_contra hc
        rw [List.getElem?_eq_none (by omega)] at h1
        exact Option.noConfusion h1
      cases h2 : getTableColumnsAux rest with
      | none =>
        rw [h2] at ih
        simp only [List.mem_cons]
        constructor
        · intro h
          simp at h
        · intro h
          have : ∀ l ∈ rest, 2 ≤ (splitString l ['|']).length :=
            fun l hl => h l (Or.inr hl)
          rw [← ih] at this
          simp at this
      | some cs =>
        rw [h2] at ih
        simp only [List.mem_cons]
        constructor
        · intro _ l hl
          rcases hl with rfl | hl
          · omega
          · exact (ih.mp (by simp)) l hl
        · intro _
          simp



/-- C7: the `parts[1]` accesses of `getTableColumns` are all in bounds iff
every non-blank line of the introspection output splits into at least two
pipe-delimited fields; a line with fewer fields makes the access
out-of-bounds (modelled as `none`); a well-formed and a malformed
concrete output. -/
theorem getTableColumns_spec (output : List Char) :
    ((getTableColumns output).isSome = true ↔
      ∀ line ∈ omitNullStrings (splitString output ['\n']),
        2 ≤ (splitString line ['|']).length) ∧
      getTableColumns "0|id|INTEGER|1||1\n1|name|TEXT|0||0".toList
        = some ["id".toList, "name".toList] ∧
      getTableColumns "0|id|INTEGER\nbad".toList = none :=
  ⟨getTableColumnsAux_isSome _, by decide, by decide⟩

/-! ### Output path derivation: C8 -/

lemma take_eq_takeWhile (p : Char → Bool) (s : List Char) :
    ∀ i, i ≤ s.length →
      (∀ j, (hj : j < s.length) → j < i → p s[j] = true) →
      (∀ hj : i < s.length, p s[i] = false) →
      s.take i = s.takeWhile p := by
  induction s with
  | nil =>
    intro i h1 _ _
    simp [Nat.le_zero.mp h1]
  | cons c t ih =>
    intro i h1 h2 h3
    cases i with
    | zero =>
      have hc : p c = false := h3 (by simp)
      rw [List.take_zero, List.takeWhile_cons, hc]
      simp
    | succ j =>
      have hc : p c = true := h2 0 (by simp) (by omega)
      rw [List.take_succ_cons, List.takeWhile_cons, hc]
      simp only []
      congr 1
      exact ih j (by simpa using h1)
        (fun m hm hmj => h2 (m + 1) (by simpa using hm) (by omega))
        (fun hm => h3 (by simpa using hm))

lemma matchesAt_single (s : List Char) (ch : Char) (j : Nat) :
    matchesAt s [ch] j = true ↔ ∃ hj : j < s.length, s[j] = ch := by
  rw [matchesAt]
  by_cases hj : j < s.length
  · rw [List.drop_eq_getElem_cons hj]
    show (([s[j]] : List Char) == [ch]) = true ↔ _
    constructor
    · intro h
      exact ⟨hj, by simpa using (beq_iff_eq.mp h)⟩
    · rintro ⟨h2, hch⟩
      rw [beq_iff_eq]
      simpa using hch
  · refine iff_of_false ?_ ?_
    · rw [List.drop_eq_nil_of_le (by omega), List.take_nil]
      rw [show (([] : List Char) == [ch]) = false from rfl]
      simp
    · rintro ⟨h, -⟩
      exact hj h

/-- C8: the derived output path is the input path's text up to but not
including its first `'.'` with `".json"` appended — the whole input when
there is no dot; `"test.db" → "test.json"`, `"a.b.db" → "a.json"`,
`"nodot" → "nodot.json"`. -/
theorem derivedJsonPath_spec (s : List Char) :
    derivedJsonPath s = s.takeWhile (fun c => !(c == '.')) ++ ".json".toList ∧
      derivedJsonPath "test.db".toList = "test.json".toList ∧
      derivedJsonPath "a.b.db".toList = "a.json".toList ∧
      derivedJsonPath "nodot".toList = "nodot.json".toList := by
  refine ⟨?_, by decide, by decide, by decide⟩
  rw [derivedJsonPath]
  cases hfind : strFind s ['.'] 0 with
  | none =>
    have hnodot := List.find?_eq_none.mp hfind
    show s ++ ".json".toList = _
    have hswap : s.take s.length = s.takeWhile (fun c => !(c == '.')) := by
      apply take_eq_takeWhile _ _ s.length (le_refl _)
      · intro j hj _
        have h4 := hnodot j (List.mem_range.mpr (by omega))
        simp only [Bool.and_eq_true, decide_eq_true_eq, not_and] at h4
        have h5 : matchesAt s ['.'] j = false := by
          cases h6 : matchesAt s ['.'] j with
          | false => rfl
          | true => exact absurd h6 (h4 (by omega))
        simp only [Bool.not_eq_true']
        cases h7 : (s[j] == '.') with
        | false => rfl
        | true =>
          exact absurd ((matchesAt_single s '.' j).mpr ⟨hj, by simpa using h7⟩)
            (by simp [h5])
      · intro hj
        exact absurd hj (by omega)
    rw [← hswap, List.take_length]
  | some i =>
    obtain ⟨-, -, hm⟩ := strFind_some s ['.'] 0 i hfind
    obtain ⟨hil, hdot⟩ := (matchesAt_single s '.' i).mp hm
    obtain ⟨-, -, hmin⟩ := find?_range_some (s.length + 1) _ i hfind
    show s.take i ++ ".json".toList = _
    congr 1
    apply take_eq_takeWhile
    · omega
    · intro j hj hji
      have h4 := hmin j hji
      have h5 : matchesAt s ['.'] j = false := by
        cases h6 : matchesAt s ['.'] j with
        | false => rfl
        | true =>
          rw [h6] at h4
          simp at h4
      simp only [Bool.not_eq_true']
      cases h7 : (s[j] == '.') with
      | false => rfl
      | true =>
        exact absurd ((matchesAt_single s '.' j).mpr ⟨hj, by simpa using h7⟩)
          (by simp [h5])
    · intro hj
      simp [hdot]

/-! ### CLI behaviour: C4 -/

/-- C4: with zero arguments or more than one argument `main` prints to
the error stream, returns a non-zero exit code and writes no output file;
with exactly one argument it returns 0 — also when the conversion throws,
in which case the exception message goes to the error stream and no
output file is produced by the model. -/
theorem mainModel_spec (a b : List Char) (rest : List (List Char))
    (err : Option (List Char)) (msg : List Char) :
    ((mainModel [] err).exitCode ≠ 0 ∧ (mainModel [] err).outputFile = none ∧
        (mainModel [] err).errStream ≠ []) ∧
      ((mainModel (a :: b :: rest) err).exitCode ≠ 0 ∧
        (mainModel (a :: b :: rest) err).outputFile = none ∧
        (mainModel (a :: b :: rest) err).errStream ≠ []) ∧
      (mainModel [a] err).exitCode = 0 ∧
      (mainModel [a] (some msg)).errStream = [msg] ∧
      (mainModel [a] none).outputFile = some (derivedJsonPath a) := by
  refine ⟨⟨by simp [mainModel], rfl, by simp [mainModel]⟩,
    ⟨by simp [mainModel], rfl, by simp [mainModel]⟩, ?_, rfl, rfl⟩
  cases err with
  | none => rfl
  | some m => rfl

/-! ### Field coercion: C1 -/

/-- C1 counterexample: `std::stoi` parses the leading integer prefix and
does not require consuming the entire string, so `coerce "3.14"` is the
integer 3 — not the real 3.14 the claim states — and `coerce "7abc"` is
the integer 7, not the real 7.0. -/
theorem coerce_prefix_counterexample :
    coerce "3.14".toList = .int 3 ∧ coerce "7abc".toList = .int 7 ∧
      TypedValue.int 3 ≠ TypedValue.real (.finite ((314 : Rat) / 100)) ∧
      TypedValue.int 7 ≠ TypedValue.real (.finite 7) :=
  ⟨by decide, by decide, fun h => TypedValue.noConfusion h,
    fun h => TypedValue.noConfusion h⟩

/-- C1 (amended): for a non-empty raw field the typed value is determined
in order: if the integer parse of the leading numeric prefix succeeds
(`stoi` does not require consuming the whole string), the value is that
integer; otherwise, if the real parse of the leading prefix succeeds, the
value is that real; otherwise the original string unchanged.  Hence
`coerce "42"` is integer 42, `coerce "3.14"` is integer 3 (not real
3.14), `coerce "abc"` is the string `"abc"`, and `coerce "7abc"` is
integer 7 (not real 7.0); on the real-parse fringe, `coerce "Inf"` is an
infinite real (`strtod` accepts the infinity forms) and
`coerce ".9e999"` falls through to the string branch (`std::stod`
overflows with `std::out_of_range`). -/
theorem coerce_spec (s : List Char) (z : Int) (q : DoubleVal) (hne : s ≠ []) :
    (stoi s = some z → coerce s = .int z) ∧
      (stoi s = none → stod s = some q → coerce s = .real q) ∧
      (stoi s = none → stod s = none → coerce s = .str s) ∧
      coerce "42".toList = .int 42 ∧ coerce "3.14".toList = .int 3 ∧
      coerce "abc".toList = .str "abc".toList ∧ coerce "7abc".toList = .int 7 ∧
      coerce "Inf".toList = .real (.inf false) ∧
      coerce ".9e999".toList = .str ".9e999".toList := by
  have hie : s.isEmpty = false := by simpa using hne
  refine ⟨fun h1 => ?_, fun h1 h2 => ?_, fun h1 h2 => ?_,
    by decide, by decide, by decide, by decide, by decide, by decide⟩
  · simp [coerce, hie, h1]
  · simp [coerce, hie, h1, h2]
  · simp [coerce, hie, h1, h2]

/-- Witness for C1 (amended) at `s = "42"`, `z = 42`, `q = .finite 0`. -/
theorem coerce_spec_witness :
    (stoi "42".toList = some 42 → coerce "42".toList = .int 42) ∧
      (stoi "42".toList = none → stod "42".toList = some (.finite 0) →
        coerce "42".toList = .real (.finite 0)) ∧
      (stoi "42".toList = none → stod "42".toList = none →
        coerce "42".toList = .str "42".toList) ∧
      coerce "42".toList = .int 42 ∧ coerce "3.14".toList = .int 3 ∧
      coerce "abc".toList = .str "abc".toList ∧ coerce "7abc".toList = .int 7 ∧
      coerce "Inf".toList = .real (.inf false) ∧
      coerce ".9e999".toList = .str ".9e999".toList :=
  coerce_spec "42".toList 42 (.finite 0) (by decide)

/-! ### Record assembly: C6 -/

lemma coerce_eq_null_iff (f : List Char) : coerce f = .null ↔ f = [] := by
  constructor
  · intro h
    by_contra hf
    have hie : f.isEmpty = false := by simpa using hf
    rw [coerce, hie] at h
    simp at h
    cases h1 : stoi f with
    | some z =>
      rw [h1] at h
      exact TypedValue.noConfusion h
    | none =>
      rw [h1] at h
      cases h2 : stod f with
      | some q =>
        rw [h2] at h
        exact TypedValue.noConfusion h
      | none =>
        rw [h2] at h
        exact TypedValue.noConfusion h
  · intro h
    subst h
    rfl

lemma serializeField_mem (obj : List (List Char × TypedValue))
    (p : List Char × List Char) (kv : List Char × TypedValue)
    (h : kv ∈ serializeField obj p) :
    kv ∈ obj ∨ (kv.1 = p.2 ∧ kv.2 = coerce p.1) := by
  rw [serializeField] at h
  by_cases he : p.1.isEmpty = true
  · rw [if_pos he, jsonRef] at h
    by_cases hk : (obj.any fun q => q.1 == p.2) = true
    · rw [if_pos hk] at h
      exact Or.inl h
    · rw [if_neg hk] at h
      rcases List.mem_append.mp h with h2 | h2
      · exact Or.inl h2
      · simp at h2
        refine Or.inr ⟨by rw [h2], ?_⟩
        rw [h2]
        exact ((coerce_eq_null_iff p.1).mpr (List.isEmpty_iff.mp he)).symm
  · rw [if_neg he, jsonAssign] at h
    by_cases hk : (obj.any fun q => q.1 == p.2) = true
    · rw [if_pos hk] at h
      obtain ⟨kv2, hkv2, hmap⟩ := List.mem_map.mp h
      by_cases hq : (kv2.1 == p.2) = true
      · rw [if_pos hq] at hmap
        exact Or.inr ⟨by rw [← hmap], by rw [← hmap]⟩
      · rw [if_neg hq] at hmap
        exact Or.inl (hmap ▸ hkv2)
    · rw [if_neg hk] at h
      rcases List.mem_append.mp h with h2 | h2
      · exact Or.inl h2
      · simp at h2
        exact Or.inr ⟨by rw [h2], by rw [h2]⟩

lemma serializeField_keys_mono (obj : List (List Char × TypedValue))
    (p : List Char × List Char) (k : List Char)
    (h : ∃ v, (k, v) ∈ obj) : ∃ v, (k, v) ∈ serializeField obj p := by
  obtain ⟨v, hv⟩ := h
  rw [serializeField]
  by_cases he : p.1.isEmpty = true
  · rw [if_pos he, jsonRef]
    by_cases hk : (obj.any fun q => q.1 == p.2) = true
    · rw [if_pos hk]
      exact ⟨v, hv⟩
    · rw [if_neg hk]
      exact ⟨v, List.mem_append_left _ hv⟩
  · rw [if_neg he, jsonAssign]
    by_cases hk : (obj.any fun q => q.1 == p.2) = true
    · rw [if_pos hk]
      by_cases hq : (k == p.2) = true
      · refine ⟨coerce p.1, ?_⟩
        rw [List.mem_map]
        refine ⟨(k, v), hv, ?_⟩
        simp only [hq, if_pos]
        rw [beq_iff_eq.mp hq]
      · refine ⟨v, ?_⟩
        rw [List.mem_map]
        exact ⟨(k, v), hv, by simp [hq]⟩
    · rw [if_neg hk]
      exact ⟨v, List.mem_append_left _ hv⟩

lemma serializeField_key_inserted (obj : List (List Char × TypedValue))
    (p : List Char × List Char) : ∃ v, (p.2, v) ∈ serializeField obj p := by
  rw [serializeField]
  by_cases he : p.1.isEmpty = true
  · rw [if_pos he, jsonRef]
    by_cases hk : (obj.any fun q => q.1 == p.2) = true
    · rw [if_pos hk]
      obtain ⟨q, hq, hqk⟩ := List.any_eq_true.mp hk
      refine ⟨q.2, ?_⟩
      rw [← beq_iff_eq.mp hqk]
      simpa using hq
    · rw [if_neg hk]
      exact ⟨.null, List.mem_append_right _ (by simp)⟩
  · rw [if_neg he, jsonAssign]
    by_cases hk : (obj.any fun q => q.1 == p.2) = true
    · rw [if_pos hk]
      obtain ⟨q, hq, hqk⟩ := List.any_eq_true.mp hk
      refine ⟨coerce p.1, ?_⟩
      rw [List.mem_map]
      exact ⟨q, hq, by simp [hqk]⟩
    · rw [if_neg hk]
      exact ⟨coerce p.1, List.mem_append_right _ (by simp)⟩

lemma serializeFold_keys_mono (pairs : List (List Char × List Char)) :
    ∀ obj k, (∃ v, (k, v) ∈ obj) →
      ∃ v, (k, v) ∈ pairs.foldl serializeField obj := by
  induction pairs with
  | nil =>
    intro obj k h
    exact h
  | cons p ps ih =>
    intro obj k h
    rw [List.foldl_cons]
    exact ih _ k (serializeField_keys_mono obj p k h)

lemma serializeFold_key_present (pairs : List (List Char × List Char)) :
    ∀ obj p, p ∈ pairs → ∃ v, (p.2, v) ∈ pairs.foldl serializeField obj := by
  induction pairs with
  | nil =>
    intro obj p h
    exact absurd h (List.not_mem_nil p)
  | cons q qs ih =>
    intro obj p h
    rw [List.foldl_cons]
    rcases List.mem_cons.mp h with rfl | h2
    · exact serializeFold_keys_mono qs _ p.2 (serializeField_key_inserted obj p)
    · exact ih _ p h2

lemma serializeFold_sound (pairs : List (List Char × List Char)) :
    ∀ obj kv, kv ∈ pairs.foldl serializeField obj →
      kv ∈ obj ∨ ∃ p ∈ pairs, kv.1 = p.2 ∧ kv.2 = coerce p.1 := by
  induction pairs with
  | nil =>
    intro obj kv h
    exact Or.inl h
  | cons q qs ih =>
    intro obj kv h
    rw [List.foldl_cons] at h
    rcases ih _ kv h with h2 | ⟨p, hp, h3⟩
    · rcases serializeField_mem obj q kv h2 with h4 | h4
      · exact Or.inl h4
      · exact Or.inr ⟨q, List.mem_cons_self _ _, h4⟩
    · exact Or.inr ⟨p, List.mem_cons_of_mem _ hp, h3⟩

/-- C6: in an emitted record every processed field's column key is
present in the object — also when the field was empty, since
`operator[]` inserts a null rather than omitting the key — every emitted
value is the coercion of a raw field paired with that column, and a
coerced value is null exactly when the raw text was empty. -/
theorem serializeRecord_null_spec (columns record : List (List Char))
    (h : record.length ≤ columns.length) :
    (∀ i, (hi : i < record.length) →
        ∃ v, (columns[i], v) ∈ serializeRecord columns record) ∧
      (∀ kv ∈ serializeRecord columns record,
        ∃ p ∈ record.zip columns, kv.1 = p.2 ∧ kv.2 = coerce p.1) ∧
      (∀ f : List Char, coerce f = .null ↔ f = []) := by
  refine ⟨?_, ?_, coerce_eq_null_iff⟩
  · intro i hi
    have hz : i < (record.zip columns).length := by
      rw [List.length_zip]
      omega
    have hmem : (record[i], columns[i]) ∈ record.zip columns := by
      have hg : (record.zip columns)[i] = (record[i], columns[i]) := List.getElem_zip
      rw [← hg]
      exact List.getElem_mem hz
    exact serializeFold_key_present (record.zip columns) []
      (record[i], columns[i]) hmem
  · intro kv hkv
    rcases serializeFold_sound (record.zip columns) [] kv hkv with h2 | h2
    · exact absurd h2 (List.not_mem_nil kv)
    · exact h2

/-- Witness for C6 at columns `["c"]`, record `[""]` (one empty field). -/
theorem serializeRecord_null_spec_witness :
    (∀ i, (hi : i < [([] : List Char)].length) →
        ∃ v, ([['c']].get ⟨i, by simpa using hi⟩, v) ∈ serializeRecord [['c']] [[]]) ∧
      (∀ kv ∈ serializeRecord [['c']] [[]],
        ∃ p ∈ [([] : List Char)].zip [['c']], kv.1 = p.2 ∧ kv.2 = coerce p.1) ∧
      (∀ f : List Char, coerce f = .null ↔ f = []) :=
  serializeRecord_null_spec [['c']] [[]] (by decide)

end SqliteToJson
